import Mathlib

/-!
# Verification of the fetchmgr cached-fetch engine

Shallow embedding of the `fetchmgr` Go package (files `cacher.go` and the
`SafeFetcher` file) and proofs of the specification's claims about it.

Conventions of the embedding:
* `time.Time` and `time.Duration` are modelled as `Int` (nanoseconds);
  `t.Before(u)` is `t < u` and `t.Add(d)` is `t + d`.
* The `deleteQueue` slice is a `List (DeleteItem K)`; the `container/heap`
  algorithms (`heap.Push`, `heap.Pop`, sift-up `up`, sift-down `down`) are
  embedded verbatim from the Go standard library, specialised to
  `deleteQueue`'s `Len`/`Less`/`Swap`/`Push`/`Pop` methods.
* The concurrent engine is an explicit state machine: `pickEntry` is one
  critical section under `c.mutex`; the anonymous goroutine of `pickEntry`
  (lines 62-73 of `cacher.go`) is the `completeFetch` step; one iteration of
  `deleteLoop` (lines 101-116) is the `deleteLoopCycle` step.
-/

set_option autoImplicit false
set_option linter.unusedSectionVars false

namespace Fetchmgr

/-- `deleteItem` (cacher.go lines 118-121): a key together with its expiry
instant (`time.Time`, modelled as `Int`). -/
structure DeleteItem (K : Type) where
  key : K
  expire : Int
deriving DecidableEq

instance (K : Type) [Inhabited K] : Inhabited (DeleteItem K) :=
  ⟨⟨default, 0⟩⟩

variable {K : Type} [DecidableEq K] [Inhabited K]

/-- The expiry of slot `i` of a `deleteQueue` slice (out-of-range reads return
the default; the Go algorithms never read out of range). -/
def expAt (l : List (DeleteItem K)) (i : Nat) : Int :=
  (l.getD i default).expire

/-- `deleteQueue.Swap` (cacher.go lines 131-133):
`dq[i], dq[j] = dq[j], dq[i]`. -/
def hswap (l : List (DeleteItem K)) (i j : Nat) : List (DeleteItem K) :=
  (l.set i (l.getD j default)).set j (l.getD i default)

/-- `deleteQueue.Less` (cacher.go lines 127-129):
`dq[i].expire.Before(dq[j].expire)`. -/
def dqLess (l : List (DeleteItem K)) (i j : Nat) : Prop :=
  expAt l i < expAt l j

instance (l : List (DeleteItem K)) (i j : Nat) : Decidable (dqLess l i j) :=
  inferInstanceAs (Decidable (_ < _))

/-- Sift-up from Go's `container/heap` (`func up(h Interface, j int)`):
repeatedly compare slot `j` with its parent `(j-1)/2` and swap while the
child is strictly `Less`; stop at the root (`i == j` exactly when `j = 0`). -/
def up (l : List (DeleteItem K)) (j : Nat) : List (DeleteItem K) :=
  if h : (j - 1) / 2 = j ∨ ¬ dqLess l j ((j - 1) / 2) then l
  else up (hswap l ((j - 1) / 2) j) ((j - 1) / 2)
termination_by j
decreasing_by
  have hj : ¬ (j - 1) / 2 = j := fun hc => h (Or.inl hc)
  omega

/-- The child of `i` that Go's sift-down selects: the left child `2*i+1`,
or the right child `2*i+2` when it exists below `n` and is strictly smaller. -/
def minChild (l : List (DeleteItem K)) (i n : Nat) : Nat :=
  if 2 * i + 2 < n ∧ dqLess l (2 * i + 2) (2 * i + 1) then 2 * i + 2
  else 2 * i + 1

/-- Sift-down from Go's `container/heap` (`func down(h Interface, i0, n int)`):
while slot `i` has a child below `n`, swap with the smaller child as long as
that child is strictly `Less` than `i`. -/
def down (l : List (DeleteItem K)) (i n : Nat) : List (DeleteItem K) :=
  if _h1 : n ≤ 2 * i + 1 then l
  else if _h2 : dqLess l (minChild l i n) i then
    down (hswap l i (minChild l i n)) (minChild l i n) n
  else l
termination_by n - i
decreasing_by
  have h3 : i < minChild l i n ∧ minChild l i n < n := by
    unfold minChild; split <;> omega
  omega

/-- `heap.Push` from Go's `container/heap`, specialised to `deleteQueue`:
`dq.Push` appends (cacher.go lines 135-137), then sift-up from the last slot. -/
def heapPush (l : List (DeleteItem K)) (x : DeleteItem K) : List (DeleteItem K) :=
  up (l ++ [x]) l.length

/-- `heap.Pop` from Go's `container/heap`, specialised to `deleteQueue`:
`Swap(0, n-1)`, sift-down over the first `n-1` slots, then `dq.Pop` removes
and returns the last slot (cacher.go lines 139-144).  The Go version panics
on an empty heap (the caller guards with `Len() > 0`); here that case is
`none`. -/
def heapPop (l : List (DeleteItem K)) : Option (DeleteItem K × List (DeleteItem K)) :=
  match l with
  | [] => none
  | _ :: _ =>
    let l1 := down (hswap l 0 (l.length - 1)) 0 (l.length - 1)
    match l1.getLast? with
    | some ret => some (ret, l1.dropLast)
    | none => none

/-! ### Basic facts about `hswap`, `up`, `down` -/

theorem length_hswap (l : List (DeleteItem K)) (i j : Nat) :
    (hswap l i j).length = l.length := by
  simp [hswap]

theorem set_getD_self (l : List (DeleteItem K)) (i : Nat) (h : i < l.length) :
    l.set i (l.getD i default) = l := by
  apply List.ext_getElem (by simp)
  intro n h1 h2
  rw [List.getElem_set]
  split
  · next heq => subst heq; rw [List.getD_eq_getElem l default h]
  · rfl

theorem getD_hswap_snd (l : List (DeleteItem K)) (i j : Nat)
    (hj : j < l.length) :
    (hswap l i j).getD j default = l.getD i default := by
  unfold hswap
  rw [List.getD_eq_getElem _ _ (by simpa using hj), List.getElem_set_self]

theorem getD_hswap_fst (l : List (DeleteItem K)) (i j : Nat)
    (hi : i < l.length) (hj : j < l.length) :
    (hswap l i j).getD i default = l.getD j default := by
  by_cases hij : i = j
  · subst hij; rw [getD_hswap_snd l i i hi]
  · unfold hswap
    rw [List.getD_eq_getElem _ _ (by simpa using hi),
      List.getElem_set_ne (fun h => hij h.symm), List.getElem_set_self]

theorem getD_hswap_other (l : List (DeleteItem K)) (i j k : Nat)
    (hki : k ≠ i) (hkj : k ≠ j) :
    (hswap l i j).getD k default = l.getD k default := by
  by_cases hk : k < l.length
  · unfold hswap
    rw [List.getD_eq_getElem _ _ (by simpa using hk),
      List.getElem_set_ne (fun h => hkj h.symm),
      List.getElem_set_ne (fun h => hki h.symm),
      List.getD_eq_getElem _ _ hk]
  · rw [List.getD_eq_default _ _ (by simpa [length_hswap] using Nat.le_of_not_lt hk),
      List.getD_eq_default _ _ (Nat.le_of_not_lt hk)]

theorem expAt_hswap_fst (l : List (DeleteItem K)) (i j : Nat)
    (hi : i < l.length) (hj : j < l.length) :
    expAt (hswap l i j) i = expAt l j := by
  unfold expAt; rw [getD_hswap_fst l i j hi hj]

theorem expAt_hswap_snd (l : List (DeleteItem K)) (i j : Nat)
    (hj : j < l.length) :
    expAt (hswap l i j) j = expAt l i := by
  unfold expAt; rw [getD_hswap_snd l i j hj]

theorem expAt_hswap_other (l : List (DeleteItem K)) (i j k : Nat)
    (hki : k ≠ i) (hkj : k ≠ j) :
    expAt (hswap l i j) k = expAt l k := by
  unfold expAt; rw [getD_hswap_other l i j k hki hkj]

theorem hswap_comm (l : List (DeleteItem K)) (i j : Nat) :
    hswap l i j = hswap l j i := by
  by_cases hij : i = j
  · subst hij; rfl
  · unfold hswap; rw [List.set_comm _ _ _ hij]

theorem cons_getD_set_perm (t : List (DeleteItem K)) :
    ∀ (m : Nat) (a : DeleteItem K), m < t.length →
      (t.getD m default :: t.set m a).Perm (a :: t) := by
  induction t with
  | nil => intro m a h; simp at h
  | cons b t2 ih =>
    intro m a h
    match m with
    | 0 => simpa using List.Perm.swap a b t2
    | m' + 1 =>
      rw [List.getD_cons_succ, List.set_cons_succ]
      have s1 : (t2.getD m' default :: b :: t2.set m' a).Perm
          (b :: t2.getD m' default :: t2.set m' a) := List.Perm.swap b _ _
      have s2 : (b :: t2.getD m' default :: t2.set m' a).Perm (b :: a :: t2) :=
        List.Perm.cons b (ih m' a (by simpa using h))
      have s3 : (b :: a :: t2).Perm (a :: b :: t2) := List.Perm.swap a b t2
      exact (s1.trans s2).trans s3

theorem hswap_perm : ∀ (l : List (DeleteItem K)) (i j : Nat),
    i < l.length → j < l.length → (hswap l i j).Perm l := by
  intro l
  induction l with
  | nil => intro i j hi _; simp at hi
  | cons a t ih =>
    intro i j hi hj
    match i, j with
    | 0, 0 =>
      unfold hswap
      rw [List.set_set, List.getD_cons_zero, List.set_cons_zero]
    | 0, j' + 1 =>
      unfold hswap
      rw [List.getD_cons_succ, List.getD_cons_zero, List.set_cons_zero,
        List.set_cons_succ]
      exact cons_getD_set_perm t j' a (by simpa using hj)
    | i' + 1, 0 =>
      rw [hswap_comm]
      unfold hswap
      rw [List.getD_cons_succ, List.getD_cons_zero, List.set_cons_zero,
        List.set_cons_succ]
      exact cons_getD_set_perm t i' a (by simpa using hi)
    | i' + 1, j' + 1 =>
      unfold hswap
      rw [List.getD_cons_succ, List.getD_cons_succ, List.set_cons_succ,
        List.set_cons_succ]
      exact List.Perm.cons a (ih i' j' (by simpa using hi) (by simpa using hj))

theorem length_up (l : List (DeleteItem K)) (j : Nat) :
    (up l j).length = l.length := by
  rw [up]
  split
  · rfl
  · next hcond =>
    have hij : (j - 1) / 2 ≠ j := fun hc => hcond (Or.inl hc)
    rw [length_up (hswap l ((j - 1) / 2) j) ((j - 1) / 2), length_hswap]
termination_by j
decreasing_by omega

theorem up_perm (l : List (DeleteItem K)) (j : Nat) (h : j < l.length) :
    (up l j).Perm l := by
  rw [up]
  split
  · exact List.Perm.refl _
  · next hcond =>
    have hij : (j - 1) / 2 ≠ j := fun hc => hcond (Or.inl hc)
    have h2 : (j - 1) / 2 < j := by omega
    have hlen : (j - 1) / 2 < (hswap l ((j - 1) / 2) j).length := by
      rw [length_hswap]; omega
    exact (up_perm _ _ hlen).trans (hswap_perm l _ j (by omega) h)
termination_by j
decreasing_by omega

theorem minChild_bounds (l : List (DeleteItem K)) (i n : Nat)
    (h : 2 * i + 1 < n) : i < minChild l i n ∧ minChild l i n < n := by
  unfold minChild; split <;> omega

theorem length_down (l : List (DeleteItem K)) (i n : Nat) :
    (down l i n).length = l.length := by
  rw [down]
  split
  · rfl
  · split
    · next h1 h2 =>
      have h3 := minChild_bounds l i n (by omega)
      rw [length_down, length_hswap]
    · rfl
termination_by n - i
decreasing_by omega

theorem down_perm (l : List (DeleteItem K)) (i n : Nat) (hn : n ≤ l.length) :
    (down l i n).Perm l := by
  rw [down]
  split
  · exact List.Perm.refl _
  · split
    · next h1 h2 =>
      have h3 := minChild_bounds l i n (by omega)
      have hrec := down_perm (hswap l i (minChild l i n)) (minChild l i n) n
        (by rw [length_hswap]; exact hn)
      exact hrec.trans (hswap_perm l i (minChild l i n) (by omega) (by omega))
    · exact List.Perm.refl _
termination_by n - i
decreasing_by omega

theorem getD_down_ge (l : List (DeleteItem K)) (i n m : Nat) (hm : n ≤ m) :
    (down l i n).getD m default = l.getD m default := by
  rw [down]
  split
  · rfl
  · split
    · next h1 h2 =>
      have h3 := minChild_bounds l i n (by omega)
      rw [getD_down_ge _ _ _ m hm,
        getD_hswap_other l i (minChild l i n) m (by omega) (by omega)]
    · rfl
termination_by n - i
decreasing_by omega

/-! ### The binary-heap invariant and correctness of `heap.Push` / `heap.Pop` -/

/-- The `container/heap` invariant restricted to the first `n` slots: every
slot other than the root is `≥` its parent slot `(k-1)/2`. -/
def IsHeapN (l : List (DeleteItem K)) (n : Nat) : Prop :=
  ∀ k, k < n → 0 < k → expAt l ((k - 1) / 2) ≤ expAt l k

/-- The `container/heap` invariant for a whole `deleteQueue` slice. -/
def IsHeap (l : List (DeleteItem K)) : Prop :=
  IsHeapN l l.length

instance (l : List (DeleteItem K)) (n : Nat) : Decidable (IsHeapN l n) := by
  unfold IsHeapN; exact Nat.decidableBallLT n _

instance (l : List (DeleteItem K)) : Decidable (IsHeap l) := by
  unfold IsHeap; infer_instance

/-- Precondition of sift-up at slot `j`: the heap property holds at every
slot other than `j`, and the parent of `j` bridges over `j` to `j`'s
children. -/
def UpInv (l : List (DeleteItem K)) (j : Nat) : Prop :=
  (∀ k, k < l.length → 0 < k → k ≠ j → expAt l ((k - 1) / 2) ≤ expAt l k) ∧
  (∀ k, k < l.length → (k - 1) / 2 = j → 0 < j → expAt l ((j - 1) / 2) ≤ expAt l k)

theorem up_isHeap (l : List (DeleteItem K)) (j : Nat) (hj : j < l.length)
    (hinv : UpInv l j) : IsHeap (up l j) := by
  rw [up]
  split
  · next hcond =>
    intro k hk hk0
    by_cases hkj : k = j
    · subst hkj
      rcases hcond with hc | hc
      · omega
      · unfold dqLess at hc
        exact le_of_not_lt hc
    · exact hinv.1 k hk hk0 hkj
  · next hcond =>
    push_neg at hcond
    obtain ⟨hne, hlt⟩ := hcond
    unfold dqLess at hlt
    have hij : (j - 1) / 2 < j := by omega
    have hj0 : 0 < j := by omega
    apply up_isHeap (hswap l ((j - 1) / 2) j) ((j - 1) / 2)
      (by rw [length_hswap]; omega)
    constructor
    · intro k hk hk0 hki
      rw [length_hswap] at hk
      by_cases hkj : k = j
      · rw [hkj, expAt_hswap_fst l ((j - 1) / 2) j (by omega) hj,
          expAt_hswap_snd l ((j - 1) / 2) j hj]
        exact le_of_lt hlt
      · have hek : expAt (hswap l ((j - 1) / 2) j) k = expAt l k :=
          expAt_hswap_other l ((j - 1) / 2) j k hki hkj
        by_cases hpi : (k - 1) / 2 = (j - 1) / 2
        · rw [hpi, expAt_hswap_fst l ((j - 1) / 2) j (by omega) hj, hek]
          have h1 : expAt l ((j - 1) / 2) ≤ expAt l k := by
            have h2 := hinv.1 k hk hk0 hkj
            rwa [hpi] at h2
          exact le_of_lt (lt_of_lt_of_le hlt h1)
        · by_cases hpj : (k - 1) / 2 = j
          · rw [hpj, expAt_hswap_snd l ((j - 1) / 2) j hj, hek]
            exact hinv.2 k hk hpj hj0
          · rw [expAt_hswap_other l ((j - 1) / 2) j ((k - 1) / 2) hpi hpj, hek]
            exact hinv.1 k hk hk0 hkj
    · intro k hk hpk hi0
      rw [length_hswap] at hk
      have hgne_i : ((j - 1) / 2 - 1) / 2 ≠ (j - 1) / 2 := by omega
      have hgne_j : ((j - 1) / 2 - 1) / 2 ≠ j := by omega
      rw [expAt_hswap_other l ((j - 1) / 2) j (((j - 1) / 2 - 1) / 2) hgne_i hgne_j]
      by_cases hkj : k = j
      · rw [hkj, expAt_hswap_snd l ((j - 1) / 2) j hj]
        exact hinv.1 ((j - 1) / 2) (by omega) hi0 (by omega)
      · have hki : k ≠ (j - 1) / 2 := by omega
        rw [expAt_hswap_other l ((j - 1) / 2) j k hki hkj]
        have hk0 : 0 < k := by omega
        have h1 : expAt l ((j - 1) / 2) ≤ expAt l k := by
          have h2 := hinv.1 k hk hk0 hkj
          rwa [hpk] at h2
        have h2 : expAt l (((j - 1) / 2 - 1) / 2) ≤ expAt l ((j - 1) / 2) :=
          hinv.1 ((j - 1) / 2) (by omega) hi0 (by omega)
        exact le_trans h2 h1
termination_by j
decreasing_by omega

/-- `heap.Push` preserves the heap invariant: appending at the last slot
satisfies the sift-up precondition (a fresh leaf has no children). -/
theorem heapPush_isHeap (l : List (DeleteItem K)) (x : DeleteItem K)
    (h : IsHeap l) : IsHeap (heapPush l x) := by
  unfold heapPush
  apply up_isHeap _ _ (by simp)
  constructor
  · intro k hk hk0 hkne
    rw [List.length_append] at hk
    simp only [List.length_singleton] at hk
    have hkl : k < l.length := by omega
    have hpl : (k - 1) / 2 < l.length := by omega
    unfold expAt
    rw [List.getD_append _ _ _ _ hpl, List.getD_append _ _ _ _ hkl]
    exact h k hkl hk0
  · intro k hk hpk hj0
    exfalso
    rw [List.length_append] at hk
    simp only [List.length_singleton] at hk
    omega

theorem heapPush_perm (l : List (DeleteItem K)) (x : DeleteItem K) :
    (heapPush l x).Perm (x :: l) := by
  unfold heapPush
  exact (up_perm _ _ (by simp)).trans (List.perm_append_singleton x l)

theorem length_heapPush (l : List (DeleteItem K)) (x : DeleteItem K) :
    (heapPush l x).length = l.length + 1 := by
  unfold heapPush
  rw [length_up]
  simp

/-- The smaller-child slot selected by sift-down is one of the two children. -/
theorem minChild_cases (l : List (DeleteItem K)) (i n : Nat) :
    minChild l i n = 2 * i + 1 ∨ minChild l i n = 2 * i + 2 := by
  unfold minChild; split
  · exact Or.inr rfl
  · exact Or.inl rfl

/-- The selected child is `≤` every child of `i` that lies below `n`. -/
theorem minChild_min (l : List (DeleteItem K)) (i n k : Nat) (hk : k < n)
    (hk0 : 0 < k) (hpk : (k - 1) / 2 = i) :
    expAt l (minChild l i n) ≤ expAt l k := by
  have hk' : k = 2 * i + 1 ∨ k = 2 * i + 2 := by omega
  unfold minChild
  split
  · next hc =>
    unfold dqLess at hc
    rcases hk' with rfl | rfl
    · exact le_of_lt hc.2
    · exact le_refl _
  · next hc =>
    push_neg at hc
    unfold dqLess at hc
    rcases hk' with rfl | rfl
    · exact le_refl _
    · exact le_of_not_lt (hc hk)

/-- Precondition of sift-down at slot `i` over the first `n` slots: the heap
property holds at every slot whose parent is not `i`, and the parent of `i`
bridges over `i` to `i`'s children. -/
def DownInv (l : List (DeleteItem K)) (i n : Nat) : Prop :=
  (∀ k, k < n → 0 < k → (k - 1) / 2 ≠ i → expAt l ((k - 1) / 2) ≤ expAt l k) ∧
  (∀ k, k < n → (k - 1) / 2 = i → 0 < i → expAt l ((i - 1) / 2) ≤ expAt l k)

theorem down_isHeapN (l : List (DeleteItem K)) (i n : Nat) (hn : n ≤ l.length)
    (hinv : DownInv l i n) : IsHeapN (down l i n) n := by
  rw [down]
  split
  · next h1 =>
    intro k hk hk0
    by_cases hpk : (k - 1) / 2 = i
    · exfalso; omega
    · exact hinv.1 k hk hk0 hpk
  · next h1 =>
    split
    · next h2 =>
      have hb := minChild_bounds l i n (by omega)
      have hjc := minChild_cases l i n
      have hpj : (minChild l i n - 1) / 2 = i := by omega
      unfold dqLess at h2
      apply down_isHeapN _ _ _ (by rw [length_hswap]; exact hn)
      constructor
      · intro k hk hk0 hkj
        by_cases hkeq : k = minChild l i n
        · subst hkeq
          rw [hpj, expAt_hswap_fst l i (minChild l i n) (by omega) (by omega),
            expAt_hswap_snd l i (minChild l i n) (by omega)]
          exact le_of_lt h2
        · by_cases hki : k = i
          · subst hki
            have hi0 : 0 < k := hk0
            have hg_i : (k - 1) / 2 ≠ k := by omega
            have hg_j : (k - 1) / 2 ≠ minChild l k n := by omega
            rw [expAt_hswap_other l k (minChild l k n) ((k - 1) / 2) hg_i hg_j,
              expAt_hswap_fst l k (minChild l k n) (by omega) (by omega)]
            exact hinv.2 (minChild l k n) (by omega) (by omega) hi0
          · have hek : expAt (hswap l i (minChild l i n)) k = expAt l k :=
              expAt_hswap_other l i (minChild l i n) k hki hkeq
            by_cases hpi : (k - 1) / 2 = i
            · rw [hpi, expAt_hswap_fst l i (minChild l i n) (by omega) (by omega),
                hek]
              exact minChild_min l i n k hk hk0 hpi
            · rw [expAt_hswap_other l i (minChild l i n) ((k - 1) / 2) hpi hkj,
                hek]
              exact hinv.1 k hk hk0 hpi
      · intro k hk hpk hj0
        have hki : k ≠ i := by omega
        have hkj : k ≠ minChild l i n := by omega
        rw [hpj, expAt_hswap_fst l i (minChild l i n) (by omega) (by omega),
          expAt_hswap_other l i (minChild l i n) k hki hkj]
        have h3 := hinv.1 k hk (by omega) (by omega)
        rwa [hpk] at h3
    · next h2 =>
      intro k hk hk0
      by_cases hpk : (k - 1) / 2 = i
      · unfold dqLess at h2
        have hmin : expAt l (minChild l i n) ≤ expAt l k :=
          minChild_min l i n k hk hk0 hpk
        have h3 : expAt l i ≤ expAt l (minChild l i n) := le_of_not_lt h2
        rw [hpk]
        exact le_trans h3 hmin
      · exact hinv.1 k hk hk0 hpk
termination_by n - i
decreasing_by omega

/-- In a heap, the root slot is minimal among the first `n` slots. -/
theorem isHeapN_root_min (l : List (DeleteItem K)) (n : Nat)
    (h : IsHeapN l n) : ∀ k, k < n → expAt l 0 ≤ expAt l k := by
  intro k
  induction k using Nat.strong_induction_on with
  | _ k ih =>
    intro hk
    rcases Nat.eq_zero_or_pos k with rfl | hk0
    · exact le_refl _
    · exact le_trans (ih ((k - 1) / 2) (by omega) (by omega)) (h k hk hk0)

theorem getD_dropLast (l : List (DeleteItem K)) (m : Nat) (hm : m < l.length - 1) :
    l.dropLast.getD m default = l.getD m default := by
  have h1 : m < l.dropLast.length := by rw [List.length_dropLast]; exact hm
  have h2 : m < l.length := by omega
  rw [List.getD_eq_getElem _ _ h1, List.getD_eq_getElem _ _ h2,
    List.getElem_dropLast]

theorem expAt_dropLast (l : List (DeleteItem K)) (m : Nat) (hm : m < l.length - 1) :
    expAt l.dropLast m = expAt l m := by
  unfold expAt; rw [getD_dropLast l m hm]

theorem getLast?_eq_getD (l : List (DeleteItem K)) (hne : l ≠ []) :
    l.getLast? = some (l.getD (l.length - 1) default) := by
  have hlen : 0 < l.length := List.length_pos.mpr hne
  rw [List.getLast?_eq_getElem?, List.getElem?_eq_getElem (by omega),
    List.getD_eq_getElem _ _ (by omega)]

/-- Full specification of `heap.Pop` on a non-empty heap: it returns the root
slot, the remaining slice is a permutation of the rest and is again a heap,
and the returned item has minimal expiry among all items. -/
theorem heapPop_spec (l : List (DeleteItem K)) (hne : l ≠ []) (hh : IsHeap l) :
    ∃ rest, heapPop l = some (l.getD 0 default, rest) ∧
      l.Perm (l.getD 0 default :: rest) ∧ IsHeap rest ∧
      ∀ x ∈ l, (l.getD 0 default).expire ≤ x.expire := by
  obtain ⟨a, t, rfl⟩ : ∃ a t, l = a :: t := by
    cases l with
    | nil => exact absurd rfl hne
    | cons a t => exact ⟨a, t, rfl⟩
  simp only [List.getD_cons_zero]
  have hlD : (down (hswap (a :: t) 0 t.length) 0 t.length).length = t.length + 1 := by
    rw [length_down, length_hswap]; simp
  have hDne : down (hswap (a :: t) 0 t.length) 0 t.length ≠ [] := by
    intro hc
    have hc2 := congrArg List.length hc
    rw [hlD] at hc2
    simp at hc2
  have hgd : (down (hswap (a :: t) 0 t.length) 0 t.length).getD t.length default = a := by
    rw [getD_down_ge _ 0 t.length t.length (le_refl _),
      getD_hswap_snd (a :: t) 0 t.length (by simp), List.getD_cons_zero]
  have hlast : (down (hswap (a :: t) 0 t.length) 0 t.length).getLast? = some a := by
    rw [getLast?_eq_getD _ hDne, hlD, Nat.add_sub_cancel, hgd]
  refine ⟨(down (hswap (a :: t) 0 t.length) 0 t.length).dropLast, ?_, ?_, ?_, ?_⟩
  · simp only [heapPop, List.length_cons, Nat.add_sub_cancel]
    rw [hlast]
  · have p1 : (hswap (a :: t) 0 t.length).Perm (a :: t) :=
      hswap_perm (a :: t) 0 t.length (by simp) (by simp)
    have p2 : (down (hswap (a :: t) 0 t.length) 0 t.length).Perm
        (hswap (a :: t) 0 t.length) :=
      down_perm _ 0 t.length (by rw [length_hswap]; simp)
    have hD1 : (down (hswap (a :: t) 0 t.length) 0 t.length).getLast hDne = a := by
      rw [List.getLast_eq_getElem,
        ← List.getD_eq_getElem _ default (by rw [hlD]; omega), hlD,
        Nat.add_sub_cancel, hgd]
    have p3 : down (hswap (a :: t) 0 t.length) 0 t.length =
        (down (hswap (a :: t) 0 t.length) 0 t.length).dropLast ++ [a] := by
      conv_lhs => rw [← List.dropLast_append_getLast hDne]
      rw [hD1]
    have p4 : ((down (hswap (a :: t) 0 t.length) 0 t.length).dropLast ++ [a]).Perm
        (a :: (down (hswap (a :: t) 0 t.length) 0 t.length).dropLast) :=
      List.perm_append_singleton a _
    have p5 : (down (hswap (a :: t) 0 t.length) 0 t.length).Perm
        (a :: (down (hswap (a :: t) 0 t.length) 0 t.length).dropLast) := by
      conv_lhs => rw [p3]
      exact p4
    exact (p1.symm.trans p2.symm).trans p5
  · have hN : IsHeapN (down (hswap (a :: t) 0 t.length) 0 t.length) t.length := by
      apply down_isHeapN _ 0 t.length (by rw [length_hswap]; simp)
      constructor
      · intro k hk hk0 hpk
        rw [expAt_hswap_other _ 0 t.length _ hpk (by omega),
          expAt_hswap_other _ 0 t.length k (by omega) (by omega)]
        exact hh k (by simp; omega) hk0
      · intro k hk hpk h0
        exact absurd h0 (by omega)
    unfold IsHeap
    have hlrest : (down (hswap (a :: t) 0 t.length) 0 t.length).dropLast.length
        = t.length := by
      rw [List.length_dropLast, hlD, Nat.add_sub_cancel]
    rw [hlrest]
    intro k hk hk0
    rw [expAt_dropLast _ _ (by rw [hlD]; omega),
      expAt_dropLast _ _ (by rw [hlD]; omega)]
    exact hN k hk hk0
  · intro x hx
    obtain ⟨k, hk, rfl⟩ := List.mem_iff_getElem.mp hx
    have hroot := isHeapN_root_min (a :: t) (a :: t).length hh k hk
    unfold expAt at hroot
    rw [List.getD_cons_zero, List.getD_eq_getElem _ _ hk] at hroot
    exact hroot

/-! ### The cached fetch engine as an explicit state machine

`pickEntry` (cacher.go lines 50-84) is one critical section under `c.mutex`,
so it is one atomic step.  The anonymous goroutine it spawns (lines 62-73) is
the `completeFetch` step, which may run at any later instant.  One iteration
of `deleteLoop` (lines 101-116) is the `deleteLoopCycle` step. -/

/-- The construction parameters of `NewCachedFetcher` (cacher.go lines
25-38): the wrapped `Fetcher` and the TTL (`time.Duration`, as `Int`).  The
fetcher is indexed by the invocation count so that distinct underlying
retrievals may return distinct (value, error) pairs. -/
structure Config (K V E : Type) where
  fetcher : Nat → K → V × Option E
  ttl : Int

/-- The state of one entry's closure (`done`/`val`/`err` of cacher.go lines
59-78): pending until the goroutine runs `close(done)`, then resolved with
the captured (value, error) pair. -/
inductive CellState (V E : Type) where
  | pending
  | resolved (val : V) (err : Option E)
deriving DecidableEq

/-- The shared state of a `CachedFetcher` (cacher.go lines 11-18): `cache`
is `map[interface{}]entry`, where an entry is the index of its closure cell
in `cells`; `tasks` lists the goroutines spawned by `pickEntry` that have
not yet completed; `queue` is the `deleteQueue` slice; `ninvoke` counts the
completed `fetcher.Fetch` invocations. -/
structure EngineState (K V E : Type) where
  cache : K → Option Nat
  cells : List (CellState V E)
  tasks : List (Nat × K)
  queue : List (DeleteItem K)
  ninvoke : Nat

variable {V E : Type}

/-- `NewCachedFetcher` (cacher.go lines 25-38): records the fetcher and the
TTL — any `ttl : Int` is accepted, there is no validation — and starts with
an empty cache and an empty deletion queue. -/
def NewCachedFetcher (fetcher : Nat → K → V × Option E) (ttl : Int) :
    Config K V E × EngineState K V E :=
  (⟨fetcher, ttl⟩, ⟨fun _ => none, [], [], [], 0⟩)

/-- The initial engine state (empty cache map, empty queue). -/
def initState : EngineState K V E :=
  ⟨fun _ => none, [], [], [], 0⟩

/-- `pickEntry` (cacher.go lines 50-84), the whole critical section under
`c.mutex`: on a hit return the existing entry unchanged; on a miss create a
pending cell, spawn the retrieval goroutine (a new element of `tasks`) and
store the new entry in the map.  Returns the entry (its cell index) and the
updated state. -/
def pickEntry (cfg : Config K V E) (s : EngineState K V E) (key : K) :
    Nat × EngineState K V E :=
  match s.cache key with
  | some e => (e, s)
  | none =>
    (s.cells.length,
      { s with
        cells := s.cells ++ [CellState.pending]
        tasks := s.tasks ++ [(s.cells.length, key)]
        cache := fun k => if k = key then some s.cells.length else s.cache k })

/-- The `lazy` closure of an entry (cacher.go lines 75-78): `<-done` then
`return val, err`.  `none` models a caller still blocked on a pending cell. -/
def forceEntry (s : EngineState K V E) (cid : Nat) : Option (V × Option E) :=
  match s.cells[cid]? with
  | some (CellState.resolved v e) => some (v, e)
  | _ => none

/-- `CachedFetcher.Fetch` (cacher.go lines 45-48): `pickEntry` then force the
entry's closure. -/
def Fetch (cfg : Config K V E) (s : EngineState K V E) (key : K) :
    Option (V × Option E) × EngineState K V E :=
  (forceEntry (pickEntry cfg s key).2 (pickEntry cfg s key).1,
    (pickEntry cfg s key).2)

/-- `queueKey` (cacher.go lines 93-99): under `queMutex`, push
`deleteItem{key, time.Now().Add(ttl)}` onto the heap. -/
def queueKey (s : EngineState K V E) (now : Int) (key : K) (ttl : Int) :
    EngineState K V E :=
  { s with queue := heapPush s.queue ⟨key, now + ttl⟩ }

/-- The goroutine spawned by `pickEntry` (cacher.go lines 62-73): run the
underlying `fetcher.Fetch`, record its (value, error) pair into the cell
(`close(done)`), then `queueKey(key, 0)` if the error is non-nil, else
`queueKey(key, c.ttl)`. -/
def completeFetch (cfg : Config K V E) (s : EngineState K V E) (now : Int)
    (cid : Nat) (key : K) : EngineState K V E :=
  let r := cfg.fetcher s.ninvoke key
  let s1 : EngineState K V E :=
    { s with
      cells := s.cells.set cid (CellState.resolved r.1 r.2)
      tasks := s.tasks.erase (cid, key)
      ninvoke := s.ninvoke + 1 }
  match r.2 with
  | some _ => queueKey s1 now key 0
  | none => queueKey s1 now key cfg.ttl

/-- `deleteKey` (cacher.go lines 86-91): under `c.mutex`, delete the key from
the cache map. -/
def deleteKey (s : EngineState K V E) (key : K) : EngineState K V E :=
  { s with cache := fun k => if k = key then none else s.cache k }

/-- One iteration of `deleteLoop` (cacher.go lines 101-116): if the queue is
non-empty, `heap.Pop` the minimum item; if `item.expire.Before(now)` delete
the key from the map, otherwise push the item back unchanged. -/
def deleteLoopCycle (s : EngineState K V E) (now : Int) : EngineState K V E :=
  match heapPop s.queue with
  | none => s
  | some (item, rest) =>
    if item.expire < now then
      deleteKey { s with queue := rest } item.key
    else
      { s with queue := heapPush rest item }

/-- `n` further `Fetch` calls for `key` (each one's `pickEntry` step),
threading the state. -/
def pickRepeat (cfg : Config K V E) (key : K) :
    Nat → EngineState K V E → EngineState K V E
  | 0, s => s
  | n + 1, s => pickRepeat cfg key n (pickEntry cfg s key).2

theorem pickEntry_hit (cfg : Config K V E) {s : EngineState K V E} {key : K}
    {e : Nat} (h : s.cache key = some e) : pickEntry cfg s key = (e, s) := by
  unfold pickEntry
  rw [h]

theorem pickRepeat_fixed (cfg : Config K V E) {s : EngineState K V E}
    {key : K} {e : Nat} (h : s.cache key = some e) :
    ∀ n, pickRepeat cfg key n s = s := by
  intro n
  induction n with
  | zero => rfl
  | succ n ih =>
    show pickRepeat cfg key n (pickEntry cfg s key).2 = s
    rw [pickEntry_hit cfg h]
    exact ih

theorem completeFetch_cache (cfg : Config K V E) (s : EngineState K V E)
    (now : Int) (cid : Nat) (key : K) :
    (completeFetch cfg s now cid key).cache = s.cache := by
  simp only [completeFetch, queueKey]
  split <;> rfl

theorem completeFetch_cells (cfg : Config K V E) (s : EngineState K V E)
    (now : Int) (cid : Nat) (key : K) :
    (completeFetch cfg s now cid key).cells =
      s.cells.set cid (CellState.resolved (cfg.fetcher s.ninvoke key).1
        (cfg.fetcher s.ninvoke key).2) := by
  simp only [completeFetch, queueKey]
  split <;> rfl

theorem completeFetch_tasks (cfg : Config K V E) (s : EngineState K V E)
    (now : Int) (cid : Nat) (key : K) :
    (completeFetch cfg s now cid key).tasks = s.tasks.erase (cid, key) := by
  simp only [completeFetch, queueKey]
  split <;> rfl

theorem heapPush_nil (x : DeleteItem K) :
    heapPush ([] : List (DeleteItem K)) x = [x] := by
  unfold heapPush
  rw [up]
  simp

theorem heapPop_singleton (x : DeleteItem K) : heapPop [x] = some (x, []) := by
  obtain ⟨rest, h1, h2, h3, h4⟩ :=
    heapPop_spec [x] (by simp) (by intro k hk hk0; simp at hk; omega)
  have hlen := h2.length_eq
  simp only [List.length_cons, List.length_nil] at hlen
  have hrest : rest = [] := List.length_eq_zero.mp (by omega)
  rw [hrest] at h1
  simpa using h1

/-- C1: a key that already has an Entry in the cache map (pending or
resolved) is served from that shared Entry with no state change at all — in
particular no new retrieval goroutine and no new invocation of the
underlying fetcher; on a miss exactly one retrieval task is spawned, and any
number of further Fetch calls for that key (the N coalesced callers, or
later memoized hits before eviction) return that same shared entry and leave
the state unchanged. -/
theorem C1_single_flight (cfg : Config K V E) (s : EngineState K V E)
    (key : K) :
    (∀ e, s.cache key = some e →
      pickEntry cfg s key = (e, s) ∧ ∀ n, pickRepeat cfg key n s = s) ∧
    (s.cache key = none →
      (pickEntry cfg s key).2.tasks
          = s.tasks ++ [((pickEntry cfg s key).1, key)] ∧
      (pickEntry cfg s key).2.ninvoke = s.ninvoke ∧
      (pickEntry cfg s key).2.cache key = some (pickEntry cfg s key).1 ∧
      ∀ n, pickRepeat cfg key n (pickEntry cfg s key).2
            = (pickEntry cfg s key).2 ∧
        pickEntry cfg (pickRepeat cfg key n (pickEntry cfg s key).2) key
          = ((pickEntry cfg s key).1, (pickEntry cfg s key).2)) := by
  constructor
  · intro e h
    exact ⟨pickEntry_hit cfg h, pickRepeat_fixed cfg h⟩
  · intro h
    have hc : (pickEntry cfg s key).2.cache key = some (pickEntry cfg s key).1 := by
      simp [pickEntry, h]
    refine ⟨by simp [pickEntry, h], by simp [pickEntry, h], hc, ?_⟩
    intro n
    refine ⟨pickRepeat_fixed cfg hc n, ?_⟩
    rw [pickRepeat_fixed cfg hc n]
    exact pickEntry_hit cfg hc

/-- Concrete engine instance for evaluating the claims: keys, values and
errors are all `Nat`, the fetcher succeeds with `key + 7`. -/
def cfgW : Config Nat Nat Nat :=
  ⟨fun _ k => (k + 7, none), 50⟩

/-- The state after one miss for key `0` from the empty engine. -/
def stateW : EngineState Nat Nat Nat :=
  (pickEntry cfgW initState 0).2

theorem C1_single_flight_witness :
    stateW.cache 0 = some 0 ∧ pickEntry cfgW stateW 0 = (0, stateW) ∧
      pickRepeat cfgW 0 5 stateW = stateW := by
  have h : stateW.cache 0 = some 0 := by
    simp [stateW, pickEntry, initState]
  obtain ⟨h1, h2⟩ := (C1_single_flight cfgW stateW 0).1 0 h
  exact ⟨h, h1, h2 5⟩

/-- C2: a Fetch that observes the completed retrieval returns exactly the
(value, error) pair the underlying fetcher produced, unmodified, for both
success and failure (the statement quantifies over every fetcher outcome). -/
theorem C2_pass_through (cfg : Config K V E) (s : EngineState K V E)
    (key : K) (now : Int) (h : s.cache key = none) :
    (Fetch cfg (completeFetch cfg (pickEntry cfg s key).2 now
        (pickEntry cfg s key).1 key) key).1
      = some (cfg.fetcher s.ninvoke key) := by
  have hc1 : (pickEntry cfg s key).2.cache key = some (pickEntry cfg s key).1 := by
    simp [pickEntry, h]
  have hc2 : (completeFetch cfg (pickEntry cfg s key).2 now
      (pickEntry cfg s key).1 key).cache key = some (pickEntry cfg s key).1 := by
    rw [completeFetch_cache]
    exact hc1
  unfold Fetch
  rw [pickEntry_hit cfg hc2]
  unfold forceEntry
  rw [completeFetch_cells]
  have hcells : (pickEntry cfg s key).2.cells = s.cells ++ [CellState.pending] := by
    simp [pickEntry, h]
  have hcid : (pickEntry cfg s key).1 = s.cells.length := by
    simp [pickEntry, h]
  have hninv : (pickEntry cfg s key).2.ninvoke = s.ninvoke := by
    simp [pickEntry, h]
  rw [hcells, hcid, hninv]
  have h3 : s.cells.length < ((s.cells ++ [CellState.pending]).set s.cells.length
      (CellState.resolved (cfg.fetcher s.ninvoke key).1
        (cfg.fetcher s.ninvoke key).2)).length := by
    simp
  rw [List.getElem?_eq_getElem h3, List.getElem_set_self]

/-- Concrete engine instance whose fetcher always fails with error `key+3`. -/
def cfgW2 : Config Nat Nat Nat :=
  ⟨fun _ k => (0, some (k + 3)), 50⟩

theorem C2_pass_through_witness :
    (initState : EngineState Nat Nat Nat).cache 5 = none ∧
    (Fetch cfgW2 (completeFetch cfgW2 (pickEntry cfgW2 initState 5).2 100
        (pickEntry cfgW2 initState 5).1 5) 5).1 = some (cfgW2.fetcher 0 5) :=
  ⟨rfl, C2_pass_through cfgW2 initState 5 100 rfl⟩

/-- C3: when the retrieval goroutine completes it pushes exactly one
Deletion Schedule Item for the key onto the deletion queue, with expiry
`now + TTL` when the error is nil and expiry `now` (zero delay) when it is
non-nil. -/
theorem C3_completion_schedules_deletion (cfg : Config K V E)
    (s : EngineState K V E) (now : Int) (cid : Nat) (key : K) :
    (completeFetch cfg s now cid key).queue.Perm
      ((⟨key, match (cfg.fetcher s.ninvoke key).2 with
              | none => now + cfg.ttl
              | some _ => now⟩ : DeleteItem K) :: s.queue) := by
  unfold completeFetch queueKey
  rcases hr : (cfg.fetcher s.ninvoke key).2 with _ | e
  · simp only [hr]
    exact heapPush_perm _ _
  · simp only [hr, add_zero]
    exact heapPush_perm _ _

/-- C10: the constructor accepts any TTL, with no validation; with TTL ≤ 0 a
successful retrieval is scheduled with expiry `now + ttl ≤ now`, exactly
like a failure, and the next eviction cycle at any strictly later instant
removes the key from the cache. -/
theorem C10_nonpositive_ttl (f : Nat → K → V × Option E) (ttl : Int)
    (key : K) (now now' : Int) (httl : ttl ≤ 0)
    (hsucc : (f 0 key).2 = none) (hnow : now < now') :
    (completeFetch (NewCachedFetcher f ttl).1
        (pickEntry (NewCachedFetcher f ttl).1 (NewCachedFetcher f ttl).2 key).2
        now
        (pickEntry (NewCachedFetcher f ttl).1 (NewCachedFetcher f ttl).2 key).1
        key).queue = [⟨key, now + ttl⟩] ∧
    now + ttl ≤ now ∧
    (deleteLoopCycle (completeFetch (NewCachedFetcher f ttl).1
        (pickEntry (NewCachedFetcher f ttl).1 (NewCachedFetcher f ttl).2 key).2
        now
        (pickEntry (NewCachedFetcher f ttl).1 (NewCachedFetcher f ttl).2 key).1
        key) now').cache key = none := by
  have hq : (completeFetch (NewCachedFetcher f ttl).1
      (pickEntry (NewCachedFetcher f ttl).1 (NewCachedFetcher f ttl).2 key).2
      now
      (pickEntry (NewCachedFetcher f ttl).1 (NewCachedFetcher f ttl).2 key).1
      key).queue = [⟨key, now + ttl⟩] := by
    simp [completeFetch, pickEntry, NewCachedFetcher, queueKey, hsucc,
      heapPush_nil]
  refine ⟨hq, by omega, ?_⟩
  unfold deleteLoopCycle
  rw [hq, heapPop_singleton]
  dsimp only
  rw [if_pos (show now + ttl < now' by omega)]
  simp [deleteKey]

theorem C10_nonpositive_ttl_witness :
    (completeFetch (NewCachedFetcher (fun _ (k : Nat) => (k, (none : Option Nat))) 0).1
        (pickEntry (NewCachedFetcher (fun _ (k : Nat) => (k, (none : Option Nat))) 0).1
          (NewCachedFetcher (fun _ (k : Nat) => (k, (none : Option Nat))) 0).2 3).2
        10
        (pickEntry (NewCachedFetcher (fun _ (k : Nat) => (k, (none : Option Nat))) 0).1
          (NewCachedFetcher (fun _ (k : Nat) => (k, (none : Option Nat))) 0).2 3).1
        3).queue = [⟨3, 10 + 0⟩] ∧
    (10 : Int) + 0 ≤ 10 ∧
    (deleteLoopCycle (completeFetch (NewCachedFetcher (fun _ (k : Nat) => (k, (none : Option Nat))) 0).1
        (pickEntry (NewCachedFetcher (fun _ (k : Nat) => (k, (none : Option Nat))) 0).1
          (NewCachedFetcher (fun _ (k : Nat) => (k, (none : Option Nat))) 0).2 3).2
        10
        (pickEntry (NewCachedFetcher (fun _ (k : Nat) => (k, (none : Option Nat))) 0).1
          (NewCachedFetcher (fun _ (k : Nat) => (k, (none : Option Nat))) 0).2 3).1
        3) 11).cache 3 = none :=
  C10_nonpositive_ttl (fun _ k => (k, none)) 0 3 10 11 (by decide) rfl (by decide)

theorem foldl_heapPush_isHeap (xs : List (DeleteItem K)) :
    ∀ q : List (DeleteItem K), IsHeap q → IsHeap (xs.foldl heapPush q) := by
  induction xs with
  | nil => intro q hq; exact hq
  | cons x xs ih => intro q hq; exact ih (heapPush q x) (heapPush_isHeap q x hq)

theorem foldl_heapPush_perm (xs : List (DeleteItem K)) :
    ∀ q : List (DeleteItem K), (xs.foldl heapPush q).Perm (xs ++ q) := by
  induction xs with
  | nil => intro q; exact List.Perm.refl _
  | cons x xs ih =>
    intro q
    have h1 : (xs.foldl heapPush (heapPush q x)).Perm (xs ++ heapPush q x) := ih _
    have h2 : (xs ++ heapPush q x).Perm (xs ++ (x :: q)) :=
      List.Perm.append_left xs (heapPush_perm q x)
    have h3 : (xs ++ (x :: q)).Perm (x :: (xs ++ q)) := List.perm_middle
    exact (h1.trans h2).trans h3

theorem isHeap_nil : IsHeap ([] : List (DeleteItem K)) := by
  intro k hk hk0
  simp at hk

/-- C7: for every sequence of inserts into the deletion queue, extract-min
indicates empty exactly when nothing was inserted, and otherwise removes and
returns an inserted item whose expiry is minimal among all inserted items
(ties broken arbitrarily), leaving the remaining items. -/
theorem C7_extract_min (xs : List (DeleteItem K)) :
    (xs = [] → heapPop (xs.foldl heapPush []) = none) ∧
    (xs ≠ [] → ∃ m rest, heapPop (xs.foldl heapPush []) = some (m, rest) ∧
      m ∈ xs ∧ (∀ x ∈ xs, m.expire ≤ x.expire) ∧ xs.Perm (m :: rest)) := by
  have hheap : IsHeap (xs.foldl heapPush []) :=
    foldl_heapPush_isHeap xs [] isHeap_nil
  have hperm : (xs.foldl heapPush []).Perm xs := by
    have h1 := foldl_heapPush_perm xs []
    rwa [List.append_nil] at h1
  constructor
  · intro h
    subst h
    rfl
  · intro hne
    have hqne : xs.foldl heapPush [] ≠ [] := by
      intro hc
      have h2 := hperm.length_eq
      rw [hc] at h2
      simp at h2
      exact hne (List.length_eq_zero.mp h2.symm)
    obtain ⟨rest, h1, h2, h3, h4⟩ := heapPop_spec _ hqne hheap
    refine ⟨_, rest, h1, ?_, ?_, ?_⟩
    · have hm : (xs.foldl heapPush []).getD 0 default ∈ xs.foldl heapPush [] :=
        h2.symm.mem_iff.mp (List.mem_cons_self _ _)
      exact hperm.mem_iff.mp hm
    · intro x hx
      exact h4 x (hperm.symm.mem_iff.mp hx)
    · exact hperm.symm.trans h2

/-- A concrete insertion sequence for evaluating the queue claims. -/
def qxs : List (DeleteItem Nat) :=
  [⟨1, 5⟩, ⟨2, 3⟩, ⟨3, 9⟩]

theorem C7_extract_min_witness :
    ∃ m rest, heapPop (qxs.foldl heapPush []) = some (m, rest) ∧
      m ∈ qxs ∧ (∀ x ∈ qxs, m.expire ≤ x.expire) ∧ qxs.Perm (m :: rest) :=
  (C7_extract_min qxs).2 (by decide)

/-- C4 (amended): on a cycle with a non-empty (heap-invariant) queue the
minimum-expiry item is popped; if its expiry is strictly before `now` the
key is deleted from the cache map and the item is gone from the queue; if
its expiry is not strictly before `now` (including expiry = now) the item is
pushed back unchanged and the cache is untouched. -/
theorem C4_eviction_cycle (s : EngineState K V E) (now : Int)
    (hq : IsHeap s.queue) (hne : s.queue ≠ []) :
    ∃ item rest, heapPop s.queue = some (item, rest) ∧
      (∀ x ∈ s.queue, item.expire ≤ x.expire) ∧
      (item.expire < now →
        (deleteLoopCycle s now).cache item.key = none ∧
        (∀ k, k ≠ item.key → (deleteLoopCycle s now).cache k = s.cache k) ∧
        (deleteLoopCycle s now).queue = rest) ∧
      (¬ item.expire < now →
        (deleteLoopCycle s now).cache = s.cache ∧
        (deleteLoopCycle s now).queue.Perm s.queue) := by
  obtain ⟨rest, h1, h2, h3, h4⟩ := heapPop_spec s.queue hne hq
  refine ⟨_, rest, h1, h4, ?_, ?_⟩
  · intro hlt
    unfold deleteLoopCycle
    rw [h1]
    dsimp only
    rw [if_pos hlt]
    refine ⟨?_, ?_, rfl⟩
    · simp [deleteKey]
    · intro k hk
      simp only [deleteKey]
      exact if_neg hk
  · intro hge
    unfold deleteLoopCycle
    rw [h1]
    dsimp only
    rw [if_neg hge]
    exact ⟨rfl, (heapPush_perm rest _).trans h2.symm⟩

/-- A concrete engine state whose queue holds one item expiring at instant 5
for key 0, which the cache maps to entry 0. -/
def sC4 : EngineState Nat Nat Nat :=
  ⟨fun k => if k = 0 then some 0 else none,
    [CellState.resolved 1 none], [], [⟨0, 5⟩], 1⟩

/-- C4 counterexample: at `now = 5` the popped item's expiry 5 satisfies the
claim's `expiry ≤ now`, yet the cycle does not delete the key — the code
tests `item.expire.Before(now)`, which is strict, so the item is pushed back
and the cache entry survives. -/
theorem C4_eviction_cycle_counterexample :
    (5 : Int) ≤ 5 ∧ (deleteLoopCycle sC4 5).cache 0 = some 0 ∧
      sC4.queue = [⟨0, 5⟩] := by
  refine ⟨by decide, ?_, rfl⟩
  show (deleteLoopCycle sC4 5).cache 0 = some 0
  unfold deleteLoopCycle
  rw [show sC4.queue = [⟨0, 5⟩] from rfl, heapPop_singleton]
  dsimp only
  rw [if_neg (by decide : ¬ (5 : Int) < 5)]
  rfl

theorem C4_eviction_cycle_witness :
    ∃ item rest, heapPop sC4.queue = some (item, rest) ∧
      (∀ x ∈ sC4.queue, item.expire ≤ x.expire) ∧
      (item.expire < 6 →
        (deleteLoopCycle sC4 6).cache item.key = none ∧
        (∀ k, k ≠ item.key → (deleteLoopCycle sC4 6).cache k = sC4.cache k) ∧
        (deleteLoopCycle sC4 6).queue = rest) ∧
      (¬ item.expire < 6 →
        (deleteLoopCycle sC4 6).cache = sC4.cache ∧
        (deleteLoopCycle sC4 6).queue.Perm sC4.queue) :=
  C4_eviction_cycle sC4 6 (by decide) (by decide)

/-! ### Lock and action order inside the engine's operations

The temporal claims C5 and C6 are about the order of the atomic actions
inside one operation, so each operation's body is embedded as the list of
its actions in source order. -/

/-- The atomic actions appearing in the bodies of `pickEntry`, `deleteKey`,
`queueKey` and one `deleteLoop` iteration. -/
inductive LockEv where
  | lockMu | unlockMu | lockQue | unlockQue
  | lookupMiss | spawnFetch | storeEntry
  | pushItem | popMin | pushBack | mapDelete
deriving DecidableEq

/-- The actions of `pickEntry` on a cache miss, in source order (cacher.go
lines 50-84): `c.mutex.Lock()` (51), the failed lookup (54), `go func(){…}()`
(62) launching the retrieval goroutine, the store `c.cache[key] = cached`
(81), and the deferred `c.mutex.Unlock()` (52), which runs when `pickEntry`
returns (83). -/
def pickEntryMissTrace : List LockEv :=
  [LockEv.lockMu, LockEv.lookupMiss, LockEv.spawnFetch, LockEv.storeEntry,
    LockEv.unlockMu]

/-- The actions of `deleteKey` (cacher.go lines 86-91). -/
def deleteKeyTrace : List LockEv :=
  [LockEv.lockMu, LockEv.mapDelete, LockEv.unlockMu]

/-- The actions of `queueKey` (cacher.go lines 93-99). -/
def queueKeyTrace : List LockEv :=
  [LockEv.lockQue, LockEv.pushItem, LockEv.unlockQue]

/-- The actions of one `deleteLoop` iteration that pops an expired item
(cacher.go lines 101-116): `queMutex.Lock()` (103), `heap.Pop` (105), then
the call `c.deleteKey(item.key)` (107) — which locks `c.mutex` (87), deletes
from the map (90) and unlocks (88) — and finally `queMutex.Unlock()` (112). -/
def deleteLoopExpiredTrace : List LockEv :=
  [LockEv.lockQue, LockEv.popMin] ++ deleteKeyTrace ++ [LockEv.unlockQue]

/-- The actions of one `deleteLoop` iteration that pushes the popped item
back because it has not yet expired (cacher.go lines 108-110). -/
def deleteLoopFutureTrace : List LockEv :=
  [LockEv.lockQue, LockEv.popMin, LockEv.pushBack, LockEv.unlockQue]

/-- Index of the first occurrence of an action in a trace. -/
def evIdx (t : List LockEv) (e : LockEv) : Nat :=
  t.findIdx (fun x => decide (x = e))

/-- Whether `c.mutex` is held after the first `i` actions of a trace. -/
def muHeld (t : List LockEv) : Bool :=
  t.foldl (fun h e =>
    match e with
    | LockEv.lockMu => true
    | LockEv.unlockMu => false
    | _ => h) false

/-- Whether `c.queMutex` is held after the first `i` actions of a trace. -/
def queHeld (t : List LockEv) : Bool :=
  t.foldl (fun h e =>
    match e with
    | LockEv.lockQue => true
    | LockEv.unlockQue => false
    | _ => h) false

/-- Both locks held after the first `i` actions of a trace. -/
def bothHeld (t : List LockEv) (i : Nat) : Prop :=
  muHeld (t.take i) = true ∧ queHeld (t.take i) = true

instance (t : List LockEv) (i : Nat) : Decidable (bothHeld t i) := by
  unfold bothHeld; infer_instance

/-- C5 counterexample: in `pickEntry`'s miss path the retrieval goroutine is
launched (line 62) before the entry is stored in the map (line 81) and
before the deferred unlock runs (at the return, line 83), so it is not the
case that the store and the lock release precede the launch. -/
theorem C5_store_unlock_before_spawn_counterexample :
    ¬ (evIdx pickEntryMissTrace LockEv.storeEntry
          < evIdx pickEntryMissTrace LockEv.spawnFetch ∧
       evIdx pickEntryMissTrace LockEv.unlockMu
          < evIdx pickEntryMissTrace LockEv.spawnFetch) := by
  decide

/-- C5 (amended): on a cache miss the retrieval goroutine is launched while
the cache-map lock is still held — after the failed lookup but before the
entry is stored in the map — and the lock is released only when `pickEntry`
returns, after the store; the retrieval itself runs asynchronously and may
therefore begin before the lock is released. -/
theorem C5_spawn_while_locked :
    evIdx pickEntryMissTrace LockEv.lockMu
        < evIdx pickEntryMissTrace LockEv.spawnFetch ∧
    evIdx pickEntryMissTrace LockEv.spawnFetch
        < evIdx pickEntryMissTrace LockEv.storeEntry ∧
    evIdx pickEntryMissTrace LockEv.storeEntry
        < evIdx pickEntryMissTrace LockEv.unlockMu := by
  decide

/-- C6 counterexample: after the third action of the expired-item eviction
cycle — `queMutex.Lock()` (103), `heap.Pop` (105), `c.mutex.Lock()` (87
inside `deleteKey`) — both the cache-map lock and the deletion-queue lock
are held simultaneously, and the queue lock stays held across the pop and
the entire map deletion, not just a single push/pop. -/
theorem C6_both_locks_counterexample : bothHeld deleteLoopExpiredTrace 3 := by
  decide

/-- C6 (amended): `queueKey` and `deleteKey` each hold only their own lock,
and an eviction cycle that merely pushes the item back never holds both
locks; but an eviction cycle that deletes an expired key holds the queue
lock for the whole cycle and additionally acquires the cache-map lock inside
it, so both locks are held simultaneously during the map deletion — always
nested in the order queue-lock first, then map-lock. -/
theorem C6_lock_discipline :
    (∀ i, i ≤ queueKeyTrace.length → ¬ bothHeld queueKeyTrace i) ∧
    (∀ i, i ≤ deleteKeyTrace.length → ¬ bothHeld deleteKeyTrace i) ∧
    (∀ i, i ≤ deleteLoopFutureTrace.length → ¬ bothHeld deleteLoopFutureTrace i) ∧
    bothHeld deleteLoopExpiredTrace 3 ∧
    evIdx deleteLoopExpiredTrace LockEv.lockQue
      < evIdx deleteLoopExpiredTrace LockEv.lockMu := by
  decide

/-! ### Interleaved executions of the engine -/

/-- One atomic step of the engine, from any thread: a `Fetch` call's
`pickEntry` critical section; the completion of a spawned retrieval
goroutine (only a goroutine that was actually spawned and has not yet
completed); or one iteration of the eviction loop. -/
inductive Step (cfg : Config K V E) : EngineState K V E → EngineState K V E → Prop where
  | pick (s : EngineState K V E) (key : K) :
      Step cfg s (pickEntry cfg s key).2
  | complete (s : EngineState K V E) (now : Int) (cid : Nat) (key : K)
      (hmem : (cid, key) ∈ s.tasks) :
      Step cfg s (completeFetch cfg s now cid key)
  | evict (s : EngineState K V E) (now : Int) :
      Step cfg s (deleteLoopCycle s now)

/-- Structural invariant of the engine: every uncompleted goroutine points
at a pending cell, no two uncompleted goroutines share a cell, and the
deletion queue satisfies the binary-heap invariant. -/
def Inv (s : EngineState K V E) : Prop :=
  (∀ t ∈ s.tasks, s.cells[t.1]? = some (CellState.pending : CellState V E)) ∧
  (s.tasks.map Prod.fst).Nodup ∧
  IsHeap s.queue

instance (s : EngineState K V E) [DecidableEq V] [DecidableEq E] :
    Decidable (Inv s) := by
  unfold Inv; infer_instance

theorem completeFetch_queue_ex (cfg : Config K V E) (s : EngineState K V E)
    (now : Int) (cid : Nat) (key : K) :
    ∃ x, (completeFetch cfg s now cid key).queue = heapPush s.queue x := by
  simp only [completeFetch, queueKey]
  split
  · exact ⟨_, rfl⟩
  · exact ⟨_, rfl⟩

theorem deleteLoopCycle_cells (s : EngineState K V E) (now : Int) :
    (deleteLoopCycle s now).cells = s.cells := by
  unfold deleteLoopCycle
  rcases hpop : heapPop s.queue with _ | ⟨item, rest⟩
  · rfl
  · dsimp only
    split <;> rfl

theorem deleteLoopCycle_tasks (s : EngineState K V E) (now : Int) :
    (deleteLoopCycle s now).tasks = s.tasks := by
  unfold deleteLoopCycle
  rcases hpop : heapPop s.queue with _ | ⟨item, rest⟩
  · rfl
  · dsimp only
    split <;> rfl

theorem inv_pickEntry (cfg : Config K V E) {s : EngineState K V E} (key : K)
    (hinv : Inv s) : Inv (pickEntry cfg s key).2 := by
  rcases h : s.cache key with _ | e
  · simp only [pickEntry, h]
    refine ⟨?_, ?_, ?_⟩
    · intro t ht
      rcases List.mem_append.mp ht with ht | ht
      · have hlt : t.1 < s.cells.length := (List.getElem?_eq_some.mp (hinv.1 t ht)).1
        rw [List.getElem?_append_left hlt]
        exact hinv.1 t ht
      · have heq : t = (s.cells.length, key) := by simpa using ht
        rw [heq]
        exact List.getElem?_concat_length _ _
    · rw [List.map_append]
      rw [List.nodup_append]
      refine ⟨hinv.2.1, by simp, ?_⟩
      intro a ha hb
      obtain ⟨t, ht, rfl⟩ := List.mem_map.mp ha
      have hlt : t.1 < s.cells.length := (List.getElem?_eq_some.mp (hinv.1 t ht)).1
      simp at hb
      omega
    · exact hinv.2.2
  · rw [pickEntry_hit cfg h]
    exact hinv

theorem inv_completeFetch (cfg : Config K V E) {s : EngineState K V E}
    (now : Int) (cid : Nat) (key : K) (hmem : (cid, key) ∈ s.tasks)
    (hinv : Inv s) : Inv (completeFetch cfg s now cid key) := by
  have hnod : s.tasks.Nodup := hinv.2.1.of_map
  refine ⟨?_, ?_, ?_⟩
  · intro t ht
    rw [completeFetch_tasks] at ht
    rw [completeFetch_cells]
    obtain ⟨htne, htmem⟩ := hnod.mem_erase_iff.mp ht
    have h1 : t.1 ≠ cid := by
      intro hc
      exact htne (List.inj_on_of_nodup_map hinv.2.1 htmem hmem (by simpa using hc))
    rw [List.getElem?_set_ne (fun hc => h1 hc.symm)]
    exact hinv.1 t htmem
  · rw [completeFetch_tasks]
    exact hinv.2.1.sublist (List.Sublist.map Prod.fst (List.erase_sublist _ _))
  · obtain ⟨x, hx⟩ := completeFetch_queue_ex cfg s now cid key
    rw [hx]
    exact heapPush_isHeap _ _ hinv.2.2

theorem inv_deleteLoopCycle {s : EngineState K V E} (now : Int)
    (hinv : Inv s) : Inv (deleteLoopCycle s now) := by
  rcases hpop : heapPop s.queue with _ | ⟨item, rest⟩
  · unfold deleteLoopCycle
    rw [hpop]
    exact hinv
  · have hne : s.queue ≠ [] := by
      intro hc
      rw [hc] at hpop
      simp [heapPop] at hpop
    obtain ⟨rest', h1, h2, h3, h4⟩ := heapPop_spec s.queue hne hinv.2.2
    rw [hpop] at h1
    have h5b : rest = rest' := congrArg Prod.snd (Option.some.inj h1)
    unfold deleteLoopCycle
    rw [hpop]
    dsimp only
    split
    · exact ⟨hinv.1, hinv.2.1, by rw [show (deleteKey { s with queue := rest }
        item.key).queue = rest from rfl, h5b]; exact h3⟩
    · exact ⟨hinv.1, hinv.2.1, heapPush_isHeap _ _ (by rw [h5b]; exact h3)⟩

theorem inv_step (cfg : Config K V E) {s s' : EngineState K V E}
    (hinv : Inv s) (h : Step cfg s s') : Inv s' := by
  cases h with
  | pick key => exact inv_pickEntry cfg key hinv
  | complete now cid key hmem => exact inv_completeFetch cfg now cid key hmem hinv
  | evict now => exact inv_deleteLoopCycle now hinv

theorem forceEntry_eq_some {s : EngineState K V E} {cid : Nat} {v : V}
    {e : Option E} :
    forceEntry s cid = some (v, e) ↔
      s.cells[cid]? = some (CellState.resolved v e) := by
  unfold forceEntry
  rcases h : s.cells[cid]? with _ | c
  · simp
  · cases c with
    | pending => simp
    | resolved v' e' => simp

theorem resolved_stable (cfg : Config K V E) {s s' : EngineState K V E}
    (hinv : Inv s) (hstep : Step cfg s s') {cid : Nat} {v : V} {e : Option E}
    (hres : s.cells[cid]? = some (CellState.resolved v e)) :
    s'.cells[cid]? = some (CellState.resolved v e) := by
  cases hstep with
  | pick key =>
    rcases h : s.cache key with _ | e'
    · simp only [pickEntry, h]
      have hlt : cid < s.cells.length := (List.getElem?_eq_some.mp hres).1
      rw [List.getElem?_append_left hlt]
      exact hres
    · rw [pickEntry_hit cfg h]
      exact hres
  | complete now cid' key hmem =>
    rw [completeFetch_cells]
    have hne : cid' ≠ cid := by
      intro hc
      subst hc
      rw [hinv.1 (cid', key) hmem] at hres
      exact CellState.noConfusion (Option.some.inj hres)
    rw [List.getElem?_set_ne hne]
    exact hres
  | evict now =>
    rw [deleteLoopCycle_cells]
    exact hres

/-- C8: once an Entry's deferred computation has been resolved with a
(value, error) pair, forcing it after any further interleaving of engine
steps, by any number of callers, yields that identical pair; moreover no
uncompleted retrieval task for that cell exists any more, so the cell was
written exactly once in its fetch cycle. -/
theorem C8_force_write_once (cfg : Config K V E) {s s' : EngineState K V E}
    (hinv : Inv s) (hsteps : Relation.ReflTransGen (Step cfg) s s')
    {cid : Nat} {v : V} {e : Option E}
    (hres : forceEntry s cid = some (v, e)) :
    forceEntry s' cid = some (v, e) ∧ ∀ key, (cid, key) ∉ s'.tasks := by
  have main : Inv s' ∧ s'.cells[cid]? = some (CellState.resolved v e) := by
    induction hsteps with
    | refl => exact ⟨hinv, forceEntry_eq_some.mp hres⟩
    | tail hab hbc ih =>
      exact ⟨inv_step cfg ih.1 hbc, resolved_stable cfg ih.1 hbc ih.2⟩
  obtain ⟨hinv', hcell⟩ := main
  refine ⟨forceEntry_eq_some.mpr hcell, ?_⟩
  intro key hmem
  rw [hinv'.1 (cid, key) hmem] at hcell
  exact CellState.noConfusion (Option.some.inj hcell)

/-- A concrete engine state with a resolved entry for key 0 and a scheduled
deletion item. -/
def sW : EngineState Nat Nat Nat :=
  ⟨fun k => if k = 0 then some 0 else none,
    [CellState.resolved 7 none], [], [⟨0, 60⟩], 1⟩

theorem C8_force_write_once_witness :
    forceEntry (pickEntry cfgW sW 1).2 0 = some (7, none) ∧
      ∀ key, (0, key) ∉ (pickEntry cfgW sW 1).2.tasks :=
  C8_force_write_once cfgW (by decide)
    (Relation.ReflTransGen.single (Step.pick sW 1)) (by rfl)

/-! ### The SafeFetcher wrapper (the unnamed source file, part_000) -/

/-- Thread positions in the body of `SafeFetcher.Fetch` (part_000 lines
22-26): before `sf.mutex.Lock()` (line 23); holding the lock and delegating
to the wrapped fetcher (line 25); delegated call returned but deferred
`sf.mutex.Unlock()` (line 24) not yet run; and returned. -/
inductive SPc where
  | idle | inCall | unlocking | done
deriving DecidableEq

/-- The joint state of `n` threads concurrently calling `SafeFetcher.Fetch`:
the current holder of `sf.mutex`, each thread's position, and the
(value, error) pair each finished call returned. -/
structure SFState (n : Nat) (V E : Type) where
  owner : Option (Fin n)
  pc : Fin n → SPc
  res : Fin n → Option (V × Option E)

/-- All threads idle, mutex free, nothing returned yet. -/
def SFInit (n : Nat) : SFState n V E :=
  ⟨none, fun _ => SPc.idle, fun _ => none⟩

/-- The atomic steps of `SafeFetcher.Fetch` for thread `t` fetching key
`keys t`: `sf.mutex.Lock()` (line 23) succeeds only when the mutex is free;
the delegated `sf.fetcher.Fetch(k)` (line 25) runs while the lock is held
and its (value, error) pair — success or failure alike — becomes the
caller's result unmodified; the deferred `sf.mutex.Unlock()` (line 24)
releases the mutex afterwards on every exit path of the call. -/
inductive SFStep {n : Nat} (fetcher : K → V × Option E) (keys : Fin n → K) :
    SFState n V E → SFState n V E → Prop where
  | lock (s : SFState n V E) (t : Fin n) :
      s.owner = none → s.pc t = SPc.idle →
      SFStep fetcher keys s
        ⟨some t, fun u => if u = t then SPc.inCall else s.pc u, s.res⟩
  | call (s : SFState n V E) (t : Fin n) :
      s.pc t = SPc.inCall →
      SFStep fetcher keys s
        ⟨s.owner, fun u => if u = t then SPc.unlocking else s.pc u,
          fun u => if u = t then some (fetcher (keys t)) else s.res u⟩
  | unlock (s : SFState n V E) (t : Fin n) :
      s.pc t = SPc.unlocking →
      SFStep fetcher keys s
        ⟨none, fun u => if u = t then SPc.done else s.pc u, s.res⟩

/-- Invariant of the SafeFetcher system: a thread inside the delegated call
or before its deferred unlock owns the mutex; the owner is always such a
thread; and a thread past its call has recorded exactly the wrapped
fetcher's pair. -/
def SFInv {n : Nat} (fetcher : K → V × Option E) (keys : Fin n → K)
    (s : SFState n V E) : Prop :=
  (∀ t, s.pc t = SPc.inCall ∨ s.pc t = SPc.unlocking → s.owner = some t) ∧
  (∀ t, s.owner = some t → s.pc t = SPc.inCall ∨ s.pc t = SPc.unlocking) ∧
  (∀ t, s.pc t = SPc.unlocking ∨ s.pc t = SPc.done →
    s.res t = some (fetcher (keys t)))

theorem sfInv_init {n : Nat} (fetcher : K → V × Option E)
    (keys : Fin n → K) : SFInv fetcher keys (SFInit n (V := V) (E := E)) := by
  refine ⟨?_, ?_, ?_⟩ <;> intro t h
  · rcases h with h | h <;> exact SPc.noConfusion h
  · exact Option.noConfusion h
  · rcases h with h | h <;> exact SPc.noConfusion h

theorem sfInv_step {n : Nat} (fetcher : K → V × Option E) (keys : Fin n → K)
    {s s' : SFState n V E} (hinv : SFInv fetcher keys s)
    (h : SFStep fetcher keys s s') : SFInv fetcher keys s' := by
  cases h with
  | lock t hown hpc =>
    refine ⟨?_, ?_, ?_⟩
    · intro u hu
      by_cases hut : u = t
      · show some t = some u
        rw [hut]
      · simp only [if_neg hut] at hu
        have h2 := hinv.1 u hu
        rw [hown] at h2
        exact Option.noConfusion h2
    · intro u hu
      have hut : t = u := Option.some.inj hu
      subst hut
      left
      simp
    · intro u hu
      by_cases hut : u = t
      · subst hut
        simp only [if_pos rfl] at hu
        rcases hu with hu | hu <;> exact SPc.noConfusion hu
      · simp only [if_neg hut] at hu
        exact hinv.2.2 u hu
  | call t hpc =>
    have howner : s.owner = some t := hinv.1 t (Or.inl hpc)
    refine ⟨?_, ?_, ?_⟩
    · intro u hu
      by_cases hut : u = t
      · subst hut
        exact howner
      · simp only [if_neg hut] at hu
        exact hinv.1 u hu
    · intro u hu
      by_cases hut : u = t
      · subst hut
        right
        simp
      · exfalso
        have h2 : s.owner = some u := hu
        rw [howner] at h2
        exact hut (Option.some.inj h2).symm
    · intro u hu
      by_cases hut : u = t
      · subst hut
        simp
      · simp only [if_neg hut] at hu ⊢
        exact hinv.2.2 u hu
  | unlock t hpc =>
    refine ⟨?_, ?_, ?_⟩
    · intro u hu
      exfalso
      by_cases hut : u = t
      · subst hut
        simp only [if_pos rfl] at hu
        rcases hu with hu | hu <;> exact SPc.noConfusion hu
      · simp only [if_neg hut] at hu
        have h2 := hinv.1 u hu
        have h3 := hinv.1 t (Or.inr hpc)
        rw [h2] at h3
        exact hut (Option.some.inj h3)
    · intro u hu
      exact Option.noConfusion hu
    · intro u hu
      by_cases hut : u = t
      · subst hut
        exact hinv.2.2 u (Or.inl hpc)
      · simp only [if_neg hut] at hu
        exact hinv.2.2 u hu

theorem sfInv_reach {n : Nat} (fetcher : K → V × Option E)
    (keys : Fin n → K) {s : SFState n V E}
    (h : Relation.ReflTransGen (SFStep fetcher keys) (SFInit n) s) :
    SFInv fetcher keys s := by
  induction h with
  | refl => exact sfInv_init fetcher keys
  | tail hab hbc ih => exact sfInv_step fetcher keys ih hbc

/-- C9: in every reachable state of `n` threads calling
`SafeFetcher.Fetch`, a thread inside the delegated call holds the single
exclusive lock; at most one thread is inside the delegated call (never more
than one in-flight call to the wrapped Fetcher); a thread that has returned
no longer holds the lock (the deferred unlock ran); and every finished call
returned exactly the wrapped fetcher's (value, error) pair. -/
theorem C9_safe_fetcher_serializes {n : Nat} (fetcher : K → V × Option E)
    (keys : Fin n → K) (s : SFState n V E)
    (hreach : Relation.ReflTransGen (SFStep fetcher keys) (SFInit n) s) :
    (∀ t, s.pc t = SPc.inCall → s.owner = some t) ∧
    (∀ t u, s.pc t = SPc.inCall → s.pc u = SPc.inCall → t = u) ∧
    (∀ t, s.pc t = SPc.done → s.owner ≠ some t) ∧
    (∀ t, s.pc t = SPc.done → s.res t = some (fetcher (keys t))) := by
  have hinv := sfInv_reach fetcher keys hreach
  refine ⟨?_, ?_, ?_, ?_⟩
  · intro t h
    exact hinv.1 t (Or.inl h)
  · intro t u ht hu
    have h1 := hinv.1 t (Or.inl ht)
    have h2 := hinv.1 u (Or.inl hu)
    exact Option.some.inj (h1.symm.trans h2)
  · intro t h hc
    rcases hinv.2.1 t hc with h' | h' <;> rw [h] at h' <;> exact SPc.noConfusion h'
  · intro t h
    exact hinv.2.2 t (Or.inr h)

/-- Concrete SafeFetcher system: two threads, fetcher succeeds with `k+1`. -/
def sfFetchW : Nat → Nat × Option Nat := fun k => (k + 1, none)

/-- The two threads fetch their own index. -/
def sfKeysW : Fin 2 → Nat := fun t => (t : Nat)

/-- The state after thread 0 acquires the mutex. -/
def sfs1 : SFState 2 Nat Nat :=
  ⟨some 0, fun u => if u = 0 then SPc.inCall
    else (SFInit 2 : SFState 2 Nat Nat).pc u, (SFInit 2 : SFState 2 Nat Nat).res⟩

theorem C9_safe_fetcher_serializes_witness :
    (∀ t, sfs1.pc t = SPc.inCall → sfs1.owner = some t) ∧
    (∀ t u, sfs1.pc t = SPc.inCall → sfs1.pc u = SPc.inCall → t = u) ∧
    (∀ t, sfs1.pc t = SPc.done → sfs1.owner ≠ some t) ∧
    (∀ t, sfs1.pc t = SPc.done → sfs1.res t = some (sfFetchW (sfKeysW t))) :=
  C9_safe_fetcher_serializes sfFetchW sfKeysW sfs1
    (Relation.ReflTransGen.single (SFStep.lock (SFInit 2) 0 rfl rfl))

end Fetchmgr
